import Mathlib

/-!
Verification of the TextIndex engine (`src/textindex/textindex.py`).

The Python module is shallowly embedded below: module-level helpers become
plain functions, the `TextIndexEntry` tree becomes an inductive type with the
entry methods as functions in its namespace, and the mutating parts of the
`TextIndex` class (`entry_at_path`, the directive-application part of
`create_index`, the size-ratio check in `index_html`) become state-passing
functions.  Machine integers in the source are Python bignums, so `Nat`
models them exactly.
-/

/-! ## Decimal digit strings

Python works on `str(start)` / `str(end)` inside `elide_end`.  Digit
characters are modelled by their numeric values (a bijection on the digit
alphabet), most significant first, exactly the order of `str(n)` for a
natural number.  The fuel argument only bounds the recursion and is always
instantiated with a sufficient value. -/

def decDigitsAux : Nat → Nat → List Nat
  | _, 0 => []
  | 0, _ => []
  | f + 1, n + 1 => decDigitsAux f ((n + 1) / 10) ++ [(n + 1) % 10]

/-- The decimal representation of `n`, as produced by Python `str(n)`
(`str(0) = "0"`, hence the special case). -/
def decDigits (n : Nat) : List Nat :=
  if n = 0 then [0] else decDigitsAux n n

/-- Numeric value of a most-significant-first digit string: `int(...)`. -/
def digitsVal (l : List Nat) : Nat :=
  l.foldl (fun a d => 10 * a + d) 0

/-- The index `cut` computed by the `while start_str[cut] == end_str[cut]`
loop in `elide_end`: position of the first difference. -/
def firstDiff : List Nat → List Nat → Nat
  | a :: xs, b :: ys => if a = b then firstDiff xs ys + 1 else 0
  | _, _ => 0

/-- Function `elide_end(start, end)` from `textindex.py` lines 60-89, translated
clause by clause: elision only when the representations have equal length
greater than one and the values differ; teens exception when the cut would
leave a single digit and the second-to-last digit of `end` is 1. -/
def elide_end (start end_ : Nat) : Nat :=
  let s := decDigits start
  let e := decDigits end_
  if s.length = e.length ∧ 1 < s.length ∧ start ≠ end_ then
    let cut := firstDiff s e
    let cut2 :=
      if 1 < e.length ∧ cut = e.length - 1 ∧ e.getD (e.length - 2) 0 = 1 then
        cut - 1
      else cut
    digitsVal (e.drop cut2)
  else end_

/-- The longest common leading digit run of two digit strings (the wording
of the specification). -/
def commonRun : List Nat → List Nat → List Nat
  | a :: xs, b :: ys => if a = b then a :: commonRun xs ys else []
  | _, _ => []

/-- Specification-side `elide_end`, as the sentence states it: for equal
digit-count and distinct values, drop the longest common leading digit run
from the displayed end, retaining one extra digit when the elision would
leave only the last digit while the second-to-last digit of `end` is 1;
otherwise the full end value. -/
def elide_end_spec (start end_ : Nat) : Nat :=
  let s := decDigits start
  let e := decDigits end_
  if s.length = e.length ∧ start ≠ end_ then
    let k := (commonRun s e).length
    let k2 :=
      if k = e.length - 1 ∧ e.getD (e.length - 2) 0 = 1 then k - 1 else k
    digitsVal (e.drop k2)
  else end_

theorem firstDiff_eq_commonRun_length (xs ys : List Nat) :
    firstDiff xs ys = (commonRun xs ys).length := by
  induction xs generalizing ys with
  | nil => cases ys <;> simp [firstDiff, commonRun]
  | cons a xs ih =>
    cases ys with
    | nil => simp [firstDiff, commonRun]
    | cons b ys =>
      by_cases h : a = b <;> simp [firstDiff, commonRun, h, ih]

theorem digitsVal_append_singleton (l : List Nat) (d : Nat) :
    digitsVal (l ++ [d]) = 10 * digitsVal l + d := by
  simp [digitsVal, List.foldl_append]

theorem digitsVal_decDigitsAux (f : Nat) :
    ∀ n : Nat, n ≤ f → digitsVal (decDigitsAux f n) = n := by
  induction f with
  | zero =>
    intro n hn
    interval_cases n
    simp [decDigitsAux, digitsVal]
  | succ f ih =>
    intro n hn
    match n with
    | 0 => simp [decDigitsAux, digitsVal]
    | n + 1 =>
      have hdiv : (n + 1) / 10 ≤ f := by
        have h1 : (n + 1) / 10 < n + 1 := Nat.div_lt_self (Nat.succ_pos n) (by norm_num)
        omega
      rw [decDigitsAux, digitsVal_append_singleton, ih _ hdiv]
      omega

/-- Round trip: the value of the decimal representation is the number. -/
theorem digitsVal_decDigits (n : Nat) : digitsVal (decDigits n) = n := by
  by_cases h : n = 0
  · simp [decDigits, h, digitsVal]
  · simp [decDigits, h, digitsVal_decDigitsAux n n le_rfl]

theorem decDigits_ne_nil (n : Nat) : decDigits n ≠ [] := by
  by_cases h : n = 0
  · simp [decDigits, h]
  · match n, h with
    | n + 1, _ =>
      simp [decDigits, decDigitsAux]

theorem decDigits_singleton (n : Nat) (h : (decDigits n).length = 1) :
    decDigits n = [n] := by
  rcases hs : decDigits n with _ | ⟨a, tl⟩
  · exact absurd hs (decDigits_ne_nil n)
  · have htl : tl = [] := by
      rw [hs] at h; simpa using h
    subst htl
    have hv := digitsVal_decDigits n
    rw [hs] at hv
    simp only [digitsVal, List.foldl_cons, List.foldl_nil] at hv
    have han : a = n := by omega
    rw [han]

/-- C1: the function `elide_end` behaves exactly as the specification's elision rule
states, on every pair of natural inputs; in particular the teens example
112-113 displays 13 and the unequal-digit-count example 9-11 displays the
full 11. -/
theorem elide_end_matches_spec :
    (∀ start end_ : Nat, elide_end start end_ = elide_end_spec start end_) ∧
      elide_end 112 113 = 13 ∧ elide_end 9 11 = 11 := by
  refine ⟨fun start end_ => ?_, by decide, by decide⟩
  simp only [elide_end, elide_end_spec, firstDiff_eq_commonRun_length]
  by_cases hg : (decDigits start).length = (decDigits end_).length ∧ start ≠ end_
  · obtain ⟨hlen, hne⟩ := hg
    by_cases hlong : 1 < (decDigits start).length
    · -- both sides take the elision branch and agree literally
      have h1e : 1 < (decDigits end_).length := by omega
      conv_lhs => rw [if_pos ⟨hlen, hlong, hne⟩]
      conv_rhs => rw [if_pos ⟨hlen, hne⟩]
      rw [if_congr (and_iff_right h1e) rfl rfl]
    · -- single-digit case: the spec side also reproduces the full end value
      conv_lhs => rw [if_neg (show ¬((decDigits start).length = (decDigits end_).length ∧
          1 < (decDigits start).length ∧ start ≠ end_) from fun hc => hlong hc.2.1)]
      conv_rhs => rw [if_pos ⟨hlen, hne⟩]
      have hs1 : (decDigits start).length = 1 := by
        have h0' : (decDigits start).length ≠ 0 := by
          simpa [List.length_eq_zero] using decDigits_ne_nil start
        omega
      have he1 : (decDigits end_).length = 1 := by omega
      rw [decDigits_singleton start hs1, decDigits_singleton end_ he1]
      have hk : commonRun [start] [end_] = [] := by
        simp [commonRun, hne]
      rw [hk]
      split_ifs <;> simp [digitsVal]
  · conv_lhs => rw [if_neg (show ¬((decDigits start).length = (decDigits end_).length ∧
        1 < (decDigits start).length ∧ start ≠ end_) from fun hc => hg ⟨hc.1, hc.2.2⟩)]
    conv_rhs => rw [if_neg hg]

/-- C4 counterexample: the claim that the elided end of the range
123-125 displays as 25 is false on the code: all matching leading digits
are elided, so the displayed end is 5. -/
theorem elide_end_123_125_not_25 : elide_end 123 125 ≠ 25 := by decide

/-- C4 amended: for start 123 and end 125 the elided end displays
as 5: the common leading run 12 is removed and the teens exception does not
apply because the second-to-last digit of 125 is 2. -/
theorem elide_end_123_125 : elide_end 123 125 = 5 := by decide

/-! ## The entry tree

`TextIndexEntry` (class at lines 92-656) becomes an inductive tree: each
node carries the attributes set in `__init__` — `entry_id` (drawn from the
monotonically increasing `_next_id` counter, threaded explicitly below),
`label`, `sort_key`, `references`, `cross_references` and the child list
`entries`.  The `parent` back-reference is not stored: positions in the
tree encode it, and an entry's `depth()` is the number of components walked
to reach it. -/

/-- One reference record (a dict in `self.references`): the keys written by
`add_reference` and `update_latest_ref_end`.  The constant `ref-type:
reference` key is omitted (it is the same for every locator). -/
structure Loc where
  start_id : Nat
  suffix : Option String
  locator_emphasis : Bool
  section_start : Option String
  end_id : Option Nat
  end_suffix : Option String
  section_end : Option String
deriving Repr, DecidableEq

inductive TextIndexEntry : Type where
  | mk (entry_id : Nat) (label : String) (sort_key : Option String)
      (references : List Loc) (cross_references : List (String × List String))
      (entries : List TextIndexEntry)
deriving Repr

def TextIndexEntry.entry_id : TextIndexEntry → Nat
  | .mk i _ _ _ _ _ => i

def TextIndexEntry.label : TextIndexEntry → String
  | .mk _ l _ _ _ _ => l

def TextIndexEntry.sort_key : TextIndexEntry → Option String
  | .mk _ _ sk _ _ _ => sk

def TextIndexEntry.references : TextIndexEntry → List Loc
  | .mk _ _ _ rs _ _ => rs

def TextIndexEntry.cross_references : TextIndexEntry → List (String × List String)
  | .mk _ _ _ _ xs _ => xs

def TextIndexEntry.entries : TextIndexEntry → List TextIndexEntry
  | .mk _ _ _ _ _ es => es

/-- Replace the child list (models mutation through the aliased
`new_entry.entries` / `found_entry.entries` list object). -/
def TextIndexEntry.withEntries : TextIndexEntry → List TextIndexEntry → TextIndexEntry
  | .mk i l sk rs xs _, es => .mk i l sk rs xs es

theorem TextIndexEntry.withEntries_self (e : TextIndexEntry) :
    e.withEntries e.entries = e := by
  cases e; rfl

/-- Method `TextIndexEntry.add_cross_reference` (lines 187-208): append the
(ref_type, path) record unless an identical one is already present. -/
def TextIndexEntry.add_cross_reference
    (e : TextIndexEntry) (ref_type : String) (path : List String) : TextIndexEntry :=
  match e with
  | .mk i l sk rs xs es =>
    if xs.any (fun r => r.1 == ref_type && r.2 == path) then .mk i l sk rs xs es
    else .mk i l sk rs (xs ++ [(ref_type, path)]) es

/-- Python truthiness of the optional `section` string in
`add_reference` / `update_latest_ref_end` (`if section:`). -/
def sectionTruthy : Option String → Option String
  | some s => if s = "" then none else some s
  | none => none

/-- Method `TextIndexEntry.add_reference` (lines 210-241): append a locator with
only `start-id`, `suffix`, `locator-emphasis` (and `start-section` when a
truthy section is given). -/
def TextIndexEntry.add_reference (e : TextIndexEntry) (start_id : Nat)
    (suffix : Option String) (locator_emphasis : Bool) (sec : Option String) :
    TextIndexEntry :=
  match e with
  | .mk i l sk rs xs es =>
    .mk i l sk
      (rs ++ [⟨start_id, suffix, locator_emphasis, sectionTruthy sec, none, none, none⟩])
      xs es

/-- The mutation `update_latest_ref_end` performs on `references[-1]`
(lines 619-639): `end-id` is always overwritten; `end-suffix` and
`start-end` only when the new value is truthy. -/
def updateLocEnd (loc : Loc) (end_id : Nat) (end_suffix : Option String)
    (end_section : Option String) : Loc :=
  ⟨loc.start_id, loc.suffix, loc.locator_emphasis, loc.section_start, some end_id,
    (match sectionTruthy end_suffix with
     | some s => some s
     | none => loc.end_suffix),
    (match sectionTruthy end_section with
     | some s => some s
     | none => loc.section_end)⟩

/-- Method `TextIndexEntry.update_latest_ref_end`: rewrite the last locator.  With
an empty reference list Python would raise `IndexError`; both call sites
guard on `len(entry.references) > 0`, so the entry is returned unchanged in
that (unreached) case. -/
def TextIndexEntry.update_latest_ref_end (e : TextIndexEntry) (end_id : Nat)
    (end_suffix : Option String) (end_section : Option String) : TextIndexEntry :=
  match e with
  | .mk i l sk rs xs es =>
    match rs.getLast? with
    | none => .mk i l sk rs xs es
    | some last => .mk i l sk (rs.dropLast ++ [updateLocEnd last end_id end_suffix end_section]) xs es

/-! ## entry_at_path

`TextIndex.entry_at_path` (lines 1479-1520) walks `path_list + [label]`
from the root child list, descending into the first child whose label
matches each component exactly; on a miss it either fails (`create=False`)
or creates the missing node and every later one.  The global state the
Python method touches is threaded explicitly: the child list it starts
from, the `TextIndexEntry._next_id` counter, and `self.depth` (updated via
`if entry_depth > self.depth` for every created entry, whose `depth()` is
the number of components walked so far — the `level` argument). -/

structure EAPResult where
  entries : List TextIndexEntry
  nextId : Nat
  entry : Option TextIndexEntry
  created : Bool
  txDepth : Nat
deriving Repr

/-- The linear scan `for ent in entries: if ent.label == component`. -/
def findChild (entries : List TextIndexEntry) (component : String) :
    Option TextIndexEntry :=
  entries.find? (fun ent => ent.label == component)

/-- Write back an updated child over the first label match (models mutation
of the found child object in place). -/
def replaceChild : List TextIndexEntry → String → TextIndexEntry → List TextIndexEntry
  | [], _, _ => []
  | ent :: es, component, e' =>
    if ent.label == component then e' :: es else ent :: replaceChild es component e'

/-- A freshly constructed `TextIndexEntry(component, entry)`. -/
def newEntry (nid : Nat) (component : String) : TextIndexEntry :=
  .mk nid component none [] [] []

def entryAtPathAux :
    List String → List TextIndexEntry → Nat → Bool → Nat → Nat → EAPResult
  | [], entries, nid, _, _, txd => ⟨entries, nid, none, false, txd⟩
  | component :: rest, entries, nid, create, level, txd =>
    match findChild entries component with
    | some found =>
      match rest with
      | [] => ⟨entries, nid, some found, false, txd⟩
      | r :: rs =>
        let res := entryAtPathAux (r :: rs) found.entries nid create (level + 1) txd
        ⟨replaceChild entries component (found.withEntries res.entries),
          res.nextId, res.entry, res.created, res.txDepth⟩
    | none =>
      if create then
        let ne := newEntry nid component
        let txd2 := max txd level
        match rest with
        | [] => ⟨entries ++ [ne], nid + 1, some ne, true, txd2⟩
        | r :: rs =>
          let res := entryAtPathAux (r :: rs) [] (nid + 1) create (level + 1) txd2
          ⟨entries ++ [ne.withEntries res.entries], res.nextId, res.entry, true, res.txDepth⟩
      else ⟨entries, nid, none, false, txd⟩

/-- Wrapper `entry_at_path(label, path_list, create)`; the second Python return
value `entry and not created` is `.entry.isSome && !.created`. -/
def TextIndex.entry_at_path (label : String) (path_list : List String)
    (create : Bool) (entries : List TextIndexEntry) (nid : Nat) (txd : Nat) :
    EAPResult :=
  entryAtPathAux (path_list ++ [label]) entries nid create 0 txd

/-! ## C6: cross-reference deduplication -/

theorem add_cross_reference_mem (e : TextIndexEntry) (k : String) (p : List String) :
    (e.add_cross_reference k p).cross_references.any
      (fun r => r.1 == k && r.2 == p) = true := by
  cases e with
  | mk i l sk rs xs es =>
    by_cases h : xs.any (fun r => r.1 == k && r.2 == p)
    · simp [TextIndexEntry.add_cross_reference, h, TextIndexEntry.cross_references]
    · simp [TextIndexEntry.add_cross_reference, h, TextIndexEntry.cross_references,
        List.any_append]

theorem add_cross_reference_nodup (e : TextIndexEntry) (k : String) (p : List String)
    (h : e.cross_references.Nodup) :
    (e.add_cross_reference k p).cross_references.Nodup := by
  cases e with
  | mk i l sk rs xs es =>
    simp only [TextIndexEntry.cross_references] at h
    by_cases hmem : xs.any (fun r => r.1 == k && r.2 == p)
    · simpa [TextIndexEntry.add_cross_reference, hmem, TextIndexEntry.cross_references]
        using h
    · have hnot : (k, p) ∉ xs := by
        intro hin
        apply hmem
        refine List.any_eq_true.2 ⟨(k, p), hin, ?_⟩
        simp
      simp only [TextIndexEntry.add_cross_reference, hmem, if_false,
        TextIndexEntry.cross_references, Bool.false_eq_true]
      exact List.Nodup.append h (List.nodup_singleton _)
        (List.disjoint_singleton.2 hnot)

/-- C6: adding a cross-reference with a (kind, path) already present
leaves the list unchanged, and consequently any sequence of
`add_cross_reference` calls starting from a freshly created entry (whose
`cross_references` list is empty) stores at most one copy per (kind, path)
pair. -/
theorem add_cross_reference_idempotent :
    (∀ (e : TextIndexEntry) (k : String) (p : List String),
        (e.add_cross_reference k p).add_cross_reference k p =
          e.add_cross_reference k p) ∧
      ∀ (nid : Nat) (lbl : String) (ops : List (String × List String)),
        (ops.foldl (fun e op => e.add_cross_reference op.1 op.2)
            (newEntry nid lbl)).cross_references.Nodup := by
  constructor
  · intro e k p
    have h := add_cross_reference_mem e k p
    cases hadd : e.add_cross_reference k p with
    | mk i l sk rs xs es =>
      rw [hadd] at h
      simp only [TextIndexEntry.cross_references] at h
      simp [TextIndexEntry.add_cross_reference, h]
  · intro nid lbl ops
    have key : ∀ (ops : List (String × List String)) (e : TextIndexEntry),
        e.cross_references.Nodup →
        (ops.foldl (fun e op => e.add_cross_reference op.1 op.2) e).cross_references.Nodup := by
      intro ops
      induction ops with
      | nil => intro e he; simpa using he
      | cons op ops ih =>
        intro e he
        exact ih _ (add_cross_reference_nodup e op.1 op.2 he)
    exact key ops (newEntry nid lbl) (by simp [newEntry, TextIndexEntry.cross_references])

/-! ## C2: find-after-create returns the identical entry -/

theorem TextIndexEntry.label_withEntries (e : TextIndexEntry) (es : List TextIndexEntry) :
    (e.withEntries es).label = e.label := by
  cases e; rfl

theorem TextIndexEntry.entries_withEntries (e : TextIndexEntry) (es : List TextIndexEntry) :
    (e.withEntries es).entries = es := by
  cases e; rfl

theorem findChild_label {entries : List TextIndexEntry} {c : String}
    {e : TextIndexEntry} (h : findChild entries c = some e) : e.label = c := by
  have := List.find?_some h
  simpa using this

theorem findChild_nil (c : String) : findChild [] c = none := rfl

theorem findChild_cons_pos {ent : TextIndexEntry} {c : String}
    (es : List TextIndexEntry) (h : ent.label = c) :
    findChild (ent :: es) c = some ent :=
  List.find?_cons_of_pos _ (by simp [h])

theorem findChild_cons_neg {ent : TextIndexEntry} {c : String}
    (es : List TextIndexEntry) (h : ¬ent.label = c) :
    findChild (ent :: es) c = findChild es c :=
  List.find?_cons_of_neg _ (by simp [h])

theorem replaceChild_findChild_self {entries : List TextIndexEntry} {c : String}
    {e : TextIndexEntry} (h : findChild entries c = some e) :
    replaceChild entries c e = entries := by
  induction entries with
  | nil => simp [findChild_nil] at h
  | cons ent es ih =>
    by_cases hl : ent.label = c
    · rw [findChild_cons_pos es hl] at h
      injection h with h2
      subst h2
      simp [replaceChild, hl]
    · rw [findChild_cons_neg es hl] at h
      simp [replaceChild, hl, ih h]

theorem findChild_replaceChild {entries : List TextIndexEntry} {c : String}
    {e e' : TextIndexEntry} (h : findChild entries c = some e)
    (hl' : e'.label = c) :
    findChild (replaceChild entries c e') c = some e' := by
  induction entries with
  | nil => simp [findChild_nil] at h
  | cons ent es ih =>
    by_cases hl : ent.label = c
    · have : replaceChild (ent :: es) c e' = e' :: es := by
        simp [replaceChild, hl]
      rw [this, findChild_cons_pos es hl']
    · rw [findChild_cons_neg es hl] at h
      have : replaceChild (ent :: es) c e' = ent :: replaceChild es c e' := by
        simp [replaceChild, hl]
      rw [this, findChild_cons_neg _ hl]
      exact ih h

theorem findChild_append_of_none {entries : List TextIndexEntry} {c : String}
    (h : findChild entries c = none) {x : TextIndexEntry} (hx : x.label = c) :
    findChild (entries ++ [x]) c = some x := by
  induction entries with
  | nil => exact findChild_cons_pos [] hx
  | cons ent es ih =>
    by_cases hl : ent.label = c
    · rw [findChild_cons_pos es hl] at h
      cases h
    · rw [findChild_cons_neg es hl] at h
      rw [List.cons_append, findChild_cons_neg _ hl]
      exact ih h

/-- One-step unfolding of `entryAtPathAux` on a non-empty component list. -/
theorem entryAtPathAux_cons (c : String) (rest : List String)
    (entries : List TextIndexEntry) (nid : Nat) (create : Bool) (lvl txd : Nat) :
    entryAtPathAux (c :: rest) entries nid create lvl txd =
      match findChild entries c with
      | some found =>
        match rest with
        | [] => ⟨entries, nid, some found, false, txd⟩
        | r :: rs =>
          let res := entryAtPathAux (r :: rs) found.entries nid create (lvl + 1) txd
          ⟨replaceChild entries c (found.withEntries res.entries),
            res.nextId, res.entry, res.created, res.txDepth⟩
      | none =>
        if create then
          let ne := newEntry nid c
          let txd2 := max txd lvl
          match rest with
          | [] => ⟨entries ++ [ne], nid + 1, some ne, true, txd2⟩
          | r :: rs =>
            let res := entryAtPathAux (r :: rs) [] (nid + 1) create (lvl + 1) txd2
            ⟨entries ++ [ne.withEntries res.entries], res.nextId, res.entry, true,
              res.txDepth⟩
        else ⟨entries, nid, none, false, txd⟩ := by
  rw [entryAtPathAux]

/-- Lookup only: `entry_at_path` with `create=False` performs no mutation: the child
list, the id counter and the tracked depth are returned unchanged. -/
theorem entryAtPathAux_false (comps : List String) :
    ∀ (entries : List TextIndexEntry) (nid lvl txd : Nat),
      (entryAtPathAux comps entries nid false lvl txd).entries = entries ∧
        (entryAtPathAux comps entries nid false lvl txd).nextId = nid ∧
        (entryAtPathAux comps entries nid false lvl txd).created = false ∧
        (entryAtPathAux comps entries nid false lvl txd).txDepth = txd := by
  induction comps with
  | nil => intro entries nid lvl txd; exact ⟨rfl, rfl, rfl, rfl⟩
  | cons c rest ih =>
    intro entries nid lvl txd
    rw [entryAtPathAux_cons]
    cases hf : findChild entries c with
    | none => simp
    | some found =>
      cases rest with
      | nil => simp
      | cons r rs =>
        obtain ⟨h1, h2, h3, h4⟩ := ih found.entries nid (lvl + 1) txd
        simp only [h1, h2, h3, h4, TextIndexEntry.withEntries_self]
        exact ⟨replaceChild_findChild_self hf, trivial, trivial, trivial⟩

theorem TextIndexEntry.withEntries_withEntries (e : TextIndexEntry)
    (a b : List TextIndexEntry) :
    (e.withEntries a).withEntries b = e.withEntries b := by
  cases e; rfl

/-- Creating a path and immediately looking it up again (`create=False`)
finds exactly the entry the creating call returned, without touching the
tree. -/
theorem entryAtPathAux_create_then_find :
    ∀ (comps : List String), comps ≠ [] →
      ∀ (entries : List TextIndexEntry) (nid lvl txd : Nat),
        ∃ e, (entryAtPathAux comps entries nid true lvl txd).entry = some e ∧
          ∀ (nid2 lvl2 txd2 : Nat),
            entryAtPathAux comps (entryAtPathAux comps entries nid true lvl txd).entries
                nid2 false lvl2 txd2 =
              ⟨(entryAtPathAux comps entries nid true lvl txd).entries, nid2, some e,
                false, txd2⟩ := by
  intro comps
  induction comps with
  | nil => intro hne; exact absurd rfl hne
  | cons c rest ih =>
    intro _ entries nid lvl txd
    cases hf : findChild entries c with
    | some found =>
      cases rest with
      | nil =>
        have hR : entryAtPathAux [c] entries nid true lvl txd =
            ⟨entries, nid, some found, false, txd⟩ := by
          rw [entryAtPathAux_cons, hf]
        refine ⟨found, by rw [hR], ?_⟩
        intro nid2 lvl2 txd2
        rw [hR]
        dsimp only
        rw [entryAtPathAux_cons, hf]
      | cons r rs =>
        obtain ⟨e, he, hfind⟩ := ih (by simp) found.entries nid (lvl + 1) txd
        have hR : entryAtPathAux (c :: r :: rs) entries nid true lvl txd =
            ⟨replaceChild entries c (found.withEntries
                (entryAtPathAux (r :: rs) found.entries nid true (lvl + 1) txd).entries),
              (entryAtPathAux (r :: rs) found.entries nid true (lvl + 1) txd).nextId,
              (entryAtPathAux (r :: rs) found.entries nid true (lvl + 1) txd).entry,
              (entryAtPathAux (r :: rs) found.entries nid true (lvl + 1) txd).created,
              (entryAtPathAux (r :: rs) found.entries nid true (lvl + 1) txd).txDepth⟩ := by
          rw [entryAtPathAux_cons, hf]
        have hlab : (found.withEntries
            (entryAtPathAux (r :: rs) found.entries nid true (lvl + 1) txd).entries).label
            = c := by
          rw [TextIndexEntry.label_withEntries]
          exact findChild_label hf
        have hf2 : findChild
            (replaceChild entries c (found.withEntries
              (entryAtPathAux (r :: rs) found.entries nid true (lvl + 1) txd).entries)) c
            = some (found.withEntries
              (entryAtPathAux (r :: rs) found.entries nid true (lvl + 1) txd).entries) :=
          findChild_replaceChild hf hlab
        refine ⟨e, by rw [hR]; exact he, ?_⟩
        intro nid2 lvl2 txd2
        rw [hR]
        dsimp only
        rw [entryAtPathAux_cons, hf2]
        dsimp only
        rw [TextIndexEntry.entries_withEntries, hfind nid2 (lvl2 + 1) txd2]
        dsimp only
        rw [TextIndexEntry.withEntries_withEntries, replaceChild_findChild_self hf2]
    | none =>
      cases rest with
      | nil =>
        have hR : entryAtPathAux [c] entries nid true lvl txd =
            ⟨entries ++ [newEntry nid c], nid + 1, some (newEntry nid c), true,
              max txd lvl⟩ := by
          rw [entryAtPathAux_cons, hf]
          rfl
        have hf2 : findChild (entries ++ [newEntry nid c]) c = some (newEntry nid c) :=
          findChild_append_of_none hf rfl
        refine ⟨newEntry nid c, by rw [hR], ?_⟩
        intro nid2 lvl2 txd2
        rw [hR]
        dsimp only
        rw [entryAtPathAux_cons, hf2]
      | cons r rs =>
        obtain ⟨e, he, hfind⟩ := ih (by simp) [] (nid + 1) (lvl + 1) (max txd lvl)
        have hR : entryAtPathAux (c :: r :: rs) entries nid true lvl txd =
            ⟨entries ++ [(newEntry nid c).withEntries
                (entryAtPathAux (r :: rs) [] (nid + 1) true (lvl + 1) (max txd lvl)).entries],
              (entryAtPathAux (r :: rs) [] (nid + 1) true (lvl + 1) (max txd lvl)).nextId,
              (entryAtPathAux (r :: rs) [] (nid + 1) true (lvl + 1) (max txd lvl)).entry,
              true,
              (entryAtPathAux (r :: rs) [] (nid + 1) true (lvl + 1) (max txd lvl)).txDepth⟩ := by
          rw [entryAtPathAux_cons, hf]
          rfl
        have hlab : ((newEntry nid c).withEntries
            (entryAtPathAux (r :: rs) [] (nid + 1) true (lvl + 1) (max txd lvl)).entries).label
            = c := by
          rw [TextIndexEntry.label_withEntries]; rfl
        have hf2 : findChild
            (entries ++ [(newEntry nid c).withEntries
              (entryAtPathAux (r :: rs) [] (nid + 1) true (lvl + 1) (max txd lvl)).entries]) c
            = some ((newEntry nid c).withEntries
              (entryAtPathAux (r :: rs) [] (nid + 1) true (lvl + 1) (max txd lvl)).entries) :=
          findChild_append_of_none hf hlab
        refine ⟨e, by rw [hR]; exact he, ?_⟩
        intro nid2 lvl2 txd2
        rw [hR]
        dsimp only
        rw [entryAtPathAux_cons, hf2]
        dsimp only
        rw [TextIndexEntry.entries_withEntries, hfind nid2 (lvl2 + 1) txd2]
        dsimp only
        rw [TextIndexEntry.withEntries_withEntries, replaceChild_findChild_self hf2]

/-- C2: a call `entry_at_path(label, ancestors, create=True)` immediately
followed by `entry_at_path(label, ancestors, create=False)` on the updated
tree returns the same entry (same `entry_id`, same contents), leaves the
tree untouched, and reports it as already existing. -/
theorem entry_at_path_create_then_find (label : String) (ancestors : List String)
    (entries : List TextIndexEntry) (nid txd nid2 txd2 : Nat) :
    ∃ e,
      (TextIndex.entry_at_path label ancestors true entries nid txd).entry = some e ∧
        TextIndex.entry_at_path label ancestors false
            (TextIndex.entry_at_path label ancestors true entries nid txd).entries
            nid2 txd2 =
          ⟨(TextIndex.entry_at_path label ancestors true entries nid txd).entries,
            nid2, some e, false, txd2⟩ := by
  obtain ⟨e, he, hfind⟩ :=
    entryAtPathAux_create_then_find (ancestors ++ [label]) (by simp) entries nid 0 txd
  exact ⟨e, he, hfind nid2 0 txd2⟩

/-! ## C10: the `TextIndex.depth` field tracks the deepest entry

`depth()` of an entry (lines 243-259) counts its proper ancestors, which in
the positional model is the level at which the entry sits.  `maxDepthF
level forest` is the maximum `depth()` over all entries of a forest whose
roots sit at `level`, and `0` for an empty forest — matching
`self.depth = 0` set in `__init__` for the empty tree. -/

def maxDepthF (level : Nat) : List TextIndexEntry → Nat
  | [] => 0
  | .mk _ _ _ _ _ cs :: es =>
    max (max level (maxDepthF (level + 1) cs)) (maxDepthF level es)

/-- Maximum `depth()` within the subtree of a single entry at `level`. -/
def maxDepthE (level : Nat) (e : TextIndexEntry) : Nat :=
  max level (maxDepthF (level + 1) e.entries)

theorem maxDepthF_nil (level : Nat) : maxDepthF level [] = 0 := by
  rw [maxDepthF]

theorem maxDepthF_cons (level : Nat) (e : TextIndexEntry) (es : List TextIndexEntry) :
    maxDepthF level (e :: es) = max (maxDepthE level e) (maxDepthF level es) := by
  cases e
  rw [maxDepthF, maxDepthE, TextIndexEntry.entries]

theorem maxDepthF_append_singleton (level : Nat) (l : List TextIndexEntry)
    (x : TextIndexEntry) :
    maxDepthF level (l ++ [x]) = max (maxDepthF level l) (maxDepthE level x) := by
  induction l with
  | nil => simp [maxDepthF_cons, maxDepthF_nil]
  | cons e es ih =>
    rw [List.cons_append, maxDepthF_cons, ih, maxDepthF_cons]
    omega

theorem maxDepthF_replaceChild {entries : List TextIndexEntry} {c : String}
    {found : TextIndexEntry} (hf : findChild entries c = some found)
    (found' : TextIndexEntry) (level m : Nat)
    (hE : maxDepthE level found' = max (maxDepthE level found) m) :
    maxDepthF level (replaceChild entries c found') =
      max (maxDepthF level entries) m := by
  induction entries with
  | nil => simp [findChild_nil] at hf
  | cons ent es ih =>
    by_cases hl : ent.label = c
    · rw [findChild_cons_pos es hl] at hf
      injection hf with hf
      subst hf
      have : replaceChild (ent :: es) c found' = found' :: es := by
        simp [replaceChild, hl]
      rw [this, maxDepthF_cons, maxDepthF_cons, hE]
      omega
    · rw [findChild_cons_neg es hl] at hf
      have : replaceChild (ent :: es) c found' = ent :: replaceChild es c found' := by
        simp [replaceChild, hl]
      rw [this, maxDepthF_cons, maxDepthF_cons, ih hf]
      omega

/-- Every `entry_at_path` walk raises the tracked depth and the true
maximum tree depth by the same amount: there is an `m` (the deepest level
at which it created an entry, or `0`) that both get joined with. -/
theorem entryAtPathAux_maxDepth :
    ∀ (comps : List String) (entries : List TextIndexEntry) (nid : Nat)
      (create : Bool) (lvl txd : Nat),
      ∃ m, (entryAtPathAux comps entries nid create lvl txd).txDepth = max txd m ∧
        maxDepthF lvl (entryAtPathAux comps entries nid create lvl txd).entries =
          max (maxDepthF lvl entries) m := by
  intro comps
  induction comps with
  | nil =>
    intro entries nid create lvl txd
    exact ⟨0, by simp [entryAtPathAux], by simp [entryAtPathAux]⟩
  | cons c rest ih =>
    intro entries nid create lvl txd
    cases hf : findChild entries c with
    | some found =>
      cases rest with
      | nil =>
        have hR : entryAtPathAux [c] entries nid create lvl txd =
            ⟨entries, nid, some found, false, txd⟩ := by
          rw [entryAtPathAux_cons, hf]
        exact ⟨0, by rw [hR]; simp, by rw [hR]; simp⟩
      | cons r rs =>
        obtain ⟨m, hmd, hmf⟩ := ih found.entries nid create (lvl + 1) txd
        have hR : entryAtPathAux (c :: r :: rs) entries nid create lvl txd =
            ⟨replaceChild entries c (found.withEntries
                (entryAtPathAux (r :: rs) found.entries nid create (lvl + 1) txd).entries),
              (entryAtPathAux (r :: rs) found.entries nid create (lvl + 1) txd).nextId,
              (entryAtPathAux (r :: rs) found.entries nid create (lvl + 1) txd).entry,
              (entryAtPathAux (r :: rs) found.entries nid create (lvl + 1) txd).created,
              (entryAtPathAux (r :: rs) found.entries nid create (lvl + 1) txd).txDepth⟩ := by
          rw [entryAtPathAux_cons, hf]
        refine ⟨m, by rw [hR]; exact hmd, ?_⟩
        rw [hR]
        dsimp only
        refine maxDepthF_replaceChild hf _ lvl m ?_
        rw [maxDepthE, maxDepthE, TextIndexEntry.entries_withEntries, hmf]
        omega
    | none =>
      cases hcr : create with
      | false =>
        have hR : entryAtPathAux (c :: rest) entries nid false lvl txd =
            ⟨entries, nid, none, false, txd⟩ := by
          rw [entryAtPathAux_cons, hf]
          cases rest <;> rfl
        exact ⟨0, by rw [hR]; simp, by rw [hR]; simp⟩
      | true =>
        cases rest with
        | nil =>
          have hR : entryAtPathAux [c] entries nid true lvl txd =
              ⟨entries ++ [newEntry nid c], nid + 1, some (newEntry nid c), true,
                max txd lvl⟩ := by
            rw [entryAtPathAux_cons, hf]
            rfl
          refine ⟨lvl, by rw [hR], ?_⟩
          rw [hR]
          dsimp only
          rw [maxDepthF_append_singleton]
          have : maxDepthE lvl (newEntry nid c) = lvl := by
            simp [maxDepthE, newEntry, TextIndexEntry.entries, maxDepthF_nil]
          rw [this]
        | cons r rs =>
          obtain ⟨m, hmd, hmf⟩ := ih [] (nid + 1) true (lvl + 1) (max txd lvl)
          have hR : entryAtPathAux (c :: r :: rs) entries nid true lvl txd =
              ⟨entries ++ [(newEntry nid c).withEntries
                  (entryAtPathAux (r :: rs) [] (nid + 1) true (lvl + 1) (max txd lvl)).entries],
                (entryAtPathAux (r :: rs) [] (nid + 1) true (lvl + 1) (max txd lvl)).nextId,
                (entryAtPathAux (r :: rs) [] (nid + 1) true (lvl + 1) (max txd lvl)).entry,
                true,
                (entryAtPathAux (r :: rs) [] (nid + 1) true (lvl + 1) (max txd lvl)).txDepth⟩ := by
            rw [entryAtPathAux_cons, hf]
            rfl
          refine ⟨max lvl m, ?_, ?_⟩
          · rw [hR]
            dsimp only
            rw [hmd]
            omega
          · rw [hR]
            dsimp only
            rw [maxDepthF_append_singleton]
            have : maxDepthE lvl ((newEntry nid c).withEntries
                (entryAtPathAux (r :: rs) [] (nid + 1) true (lvl + 1) (max txd lvl)).entries)
                = max lvl m := by
              rw [maxDepthE, TextIndexEntry.entries_withEntries, hmf, maxDepthF_nil]
              omega
            rw [this]

/-- C10: the `TextIndex.depth` field is the maximum `depth()` over all
entries of the tree: it is `0` for the empty tree built by `__init__`, and
any `entry_at_path` call keeps the field equal to the tree's true maximum
depth (entries are never removed during the scan, and `entry_at_path` is
the only place entries are created or `self.depth` updated). -/
theorem entry_at_path_depth_field_invariant :
    maxDepthF 0 [] = 0 ∧
      ∀ (label : String) (ancestors : List String) (create : Bool)
        (entries : List TextIndexEntry) (nid txd : Nat),
        txd = maxDepthF 0 entries →
        (TextIndex.entry_at_path label ancestors create entries nid txd).txDepth =
          maxDepthF 0 (TextIndex.entry_at_path label ancestors create entries nid txd).entries := by
  refine ⟨maxDepthF_nil 0, ?_⟩
  intro label ancestors create entries nid txd htxd
  obtain ⟨m, hmd, hmf⟩ :=
    entryAtPathAux_maxDepth (ancestors ++ [label]) entries nid create 0 txd
  rw [TextIndex.entry_at_path] at *
  rw [hmd, hmf, htxd]

/-- Witness for C10 at a concrete input: a two-component path created in an
empty tree (depth field `0`) leaves the field equal to the new maximum
depth. -/
theorem entry_at_path_depth_field_invariant_witness :
    (TextIndex.entry_at_path "cats" ["animals"] true [] 0 0).txDepth =
      maxDepthF 0 (TextIndex.entry_at_path "cats" ["animals"] true [] 0 0).entries :=
  entry_at_path_depth_field_invariant.2 "cats" ["animals"] true [] 0 0
    (by rw [maxDepthF_nil])

/-! ## C5: sort keys and stable sorting

`emphasis(text, remove=True)` (lines 45-57) is `re.sub(r"_([^_]+?)_",
r"\1", text)`: scanning left to right, an underscore followed by a
non-empty run of non-underscore characters and a closing underscore loses
both underscores; scanning resumes after the match, or at the next
character when no match starts here.  The fuel argument bounds the scan by
the input length and is always sufficient. -/

def seFuel : Nat → List Char → List Char
  | 0, l => l
  | _ + 1, [] => []
  | f + 1, c :: rest =>
    if c = '_' then
      match rest.dropWhile (fun d => d != '_') with
      | '_' :: tail =>
        let mid := rest.takeWhile (fun d => d != '_')
        if mid.isEmpty then c :: seFuel f rest
        else mid ++ seFuel f tail
      | _ => c :: seFuel f rest
    else c :: seFuel f rest

/-- Function `emphasis(text, remove=True)`: Markdown `_..._` markers stripped. -/
def emphasisRemove (s : String) : String :=
  String.mk (seFuel s.data.length s.data)

/-- Python `str.lower()`: each character lower-cased. -/
def strLower (s : String) : String :=
  String.mk (s.data.map Char.toLower)

/-- Method `TextIndexEntry.sort_on` (lines 602-617):
`(self.sort_key if self.sort_key else emphasis(self.label, True)).lower()`.
Note that a truthy `sort_key` is lower-cased but *not* emphasis-stripped;
only the label fallback passes through `emphasis(..., True)`. -/
def TextIndexEntry.sort_on (e : TextIndexEntry) : String :=
  strLower (match e.sort_key with
    | some k => if k = "" then emphasisRemove e.label else k
    | none => emphasisRemove e.label)

/-- The comparison key as the claim words it: `(sort_key or label)` with
emphasis stripped and then lowercased in either case. -/
def sort_on_claimed (e : TextIndexEntry) : String :=
  strLower (emphasisRemove (match e.sort_key with
    | some k => if k = "" then e.label else k
    | none => e.label))

def entryLE (a b : TextIndexEntry) : Prop :=
  a.sort_on ≤ b.sort_on

instance : DecidableRel entryLE := fun a b =>
  inferInstanceAs (Decidable (a.sort_on ≤ b.sort_on))

instance : IsTotal TextIndexEntry entryLE :=
  ⟨fun a b => le_total a.sort_on b.sort_on⟩

instance : IsTrans TextIndexEntry entryLE :=
  ⟨fun _ _ _ hab hbc => le_trans hab hbc⟩

/-- Method `TextIndex.sort_entries` (lines 2139-2142):
`sorted(entries, key=methodcaller("sort_on"))`.  Python's `sorted` is the
stable ascending comparison sort, modelled by insertion sort (stable, and
extensionally the unique stable ascending sort). -/
def TextIndex.sort_entries (entries : List TextIndexEntry) : List TextIndexEntry :=
  entries.insertionSort entryLE

/-- C5 counterexample: the claimed comparison key strips emphasis from
an explicit sort key as well, but `sort_on` lower-cases a truthy
`sort_key` without stripping emphasis: an entry with `sort_key="_a_"`
sorts on `"_a_"`, not `"a"`. -/
theorem sort_on_counterexample :
    TextIndexEntry.sort_on (.mk 0 "b" (some "_a_") [] [] []) = "_a_" ∧
      sort_on_claimed (.mk 0 "b" (some "_a_") [] [] []) = "a" ∧
      TextIndexEntry.sort_on (.mk 0 "b" (some "_a_") [] [] []) ≠
        sort_on_claimed (.mk 0 "b" (some "_a_") [] [] []) := by
  refine ⟨?_, ?_, ?_⟩ <;> decide

theorem filter_orderedInsert_pos (k : String) (a : TextIndexEntry)
    (l : List TextIndexEntry) (ha : a.sort_on = k) :
    (l.orderedInsert entryLE a).filter (fun e => e.sort_on == k) =
      a :: l.filter (fun e => e.sort_on == k) := by
  induction l with
  | nil => simp [List.orderedInsert, ha]
  | cons b l ih =>
    by_cases hr : entryLE a b
    · simp [List.orderedInsert, hr, ha]
    · have hlt : b.sort_on < a.sort_on := not_le.mp hr
      have hbk : ¬(b.sort_on = k) := by
        rw [← ha]; exact ne_of_lt hlt
      simp [List.orderedInsert, hr, hbk, ih]

theorem filter_orderedInsert_neg (k : String) (a : TextIndexEntry)
    (l : List TextIndexEntry) (ha : ¬(a.sort_on = k)) :
    (l.orderedInsert entryLE a).filter (fun e => e.sort_on == k) =
      l.filter (fun e => e.sort_on == k) := by
  induction l with
  | nil => simp [List.orderedInsert, ha]
  | cons b l ih =>
    by_cases hr : entryLE a b
    · simp [List.orderedInsert, hr, ha]
    · simp [List.orderedInsert, hr, List.filter_cons, ih]

/-- C5 amended: the code's comparison key is `sort_key` lower-cased
when a truthy `sort_key` is set (emphasis markers are *not* stripped from
it), and the label with emphasis stripped and lower-cased otherwise;
`sort_entries` orders ascending by that key, permutes nothing away, and is
stable: entries with equal keys keep their original relative order. -/
theorem sort_entries_spec :
    (∀ (i : Nat) (lbl : String) (rs : List Loc)
        (xs : List (String × List String)) (es : List TextIndexEntry),
        TextIndexEntry.sort_on (.mk i lbl none rs xs es) =
          strLower (emphasisRemove lbl)) ∧
      (∀ (i : Nat) (lbl k : String) (rs : List Loc)
          (xs : List (String × List String)) (es : List TextIndexEntry),
          TextIndexEntry.sort_on (.mk i lbl (some k) rs xs es) =
            strLower (if k = "" then emphasisRemove lbl else k)) ∧
      (∀ l : List TextIndexEntry, (TextIndex.sort_entries l).Sorted entryLE) ∧
      (∀ l : List TextIndexEntry, (TextIndex.sort_entries l).Perm l) ∧
      ∀ (l : List TextIndexEntry) (k : String),
        (TextIndex.sort_entries l).filter (fun e => e.sort_on == k) =
          l.filter (fun e => e.sort_on == k) := by
  refine ⟨fun i lbl rs xs es => rfl, fun i lbl k rs xs es => ?_,
    fun l => List.sorted_insertionSort entryLE l,
    fun l => List.perm_insertionSort entryLE l, fun l k => ?_⟩
  · rw [TextIndexEntry.sort_on]
    by_cases hk : k = "" <;> simp [hk, TextIndexEntry.sort_key, TextIndexEntry.label]
  · induction l with
    | nil => rfl
    | cons a l ih =>
      rw [TextIndex.sort_entries, List.insertionSort]
      by_cases ha : a.sort_on = k
      · rw [filter_orderedInsert_pos k a _ ha]
        rw [TextIndex.sort_entries] at ih
        rw [ih]
        simp [List.filter_cons, ha]
      · rw [filter_orderedInsert_neg k a _ ha]
        rw [TextIndex.sort_entries] at ih
        rw [ih]
        simp [List.filter_cons, ha]

/-! ## The scan pass: locators, tree mutation at a path

`create_index` mutates entries through the object `entry_at_path` returned;
in the positional model this is a rewrite of the tree at that path.
`allRefs` collects every locator dict stored anywhere in a forest. -/

def allRefs : List TextIndexEntry → List Loc
  | [] => []
  | .mk _ _ _ rs _ cs :: es => rs ++ allRefs cs ++ allRefs es

theorem allRefs_nil : allRefs [] = [] := by rw [allRefs]

theorem allRefs_cons (e : TextIndexEntry) (es : List TextIndexEntry) :
    allRefs (e :: es) = e.references ++ allRefs e.entries ++ allRefs es := by
  cases e
  rw [allRefs, TextIndexEntry.references, TextIndexEntry.entries]

/-- Apply `f` to the entry reached by walking `path` (first label match at
each level), leaving the forest unchanged when the walk misses. -/
def modifyAtPath : List String → List TextIndexEntry → (TextIndexEntry → TextIndexEntry) →
    List TextIndexEntry
  | [], l, _ => l
  | [c], l, f =>
    match findChild l c with
    | some found => replaceChild l c (f found)
    | none => l
  | c :: r :: rs, l, f =>
    match findChild l c with
    | some found =>
      replaceChild l c (found.withEntries (modifyAtPath (r :: rs) found.entries f))
    | none => l

theorem mem_allRefs_of_mem_refs {e : TextIndexEntry} {l : List TextIndexEntry}
    {loc : Loc} (he : e ∈ l) (hl : loc ∈ e.references) : loc ∈ allRefs l := by
  induction l with
  | nil => cases he
  | cons a l ih =>
    rw [allRefs_cons]
    rcases List.mem_cons.mp he with rfl | hm
    · exact List.mem_append_left _ (List.mem_append_left _ hl)
    · exact List.mem_append_right _ (ih hm)

theorem mem_allRefs_of_mem_sub {e : TextIndexEntry} {l : List TextIndexEntry}
    {loc : Loc} (he : e ∈ l) (hl : loc ∈ allRefs e.entries) : loc ∈ allRefs l := by
  induction l with
  | nil => cases he
  | cons a l ih =>
    rw [allRefs_cons]
    rcases List.mem_cons.mp he with rfl | hm
    · exact List.mem_append_left _ (List.mem_append_right _ hl)
    · exact List.mem_append_right _ (ih hm)

theorem mem_allRefs_replaceChild {l : List TextIndexEntry} {c : String}
    {x : TextIndexEntry} {loc : Loc} (h : loc ∈ allRefs (replaceChild l c x)) :
    loc ∈ allRefs l ∨ loc ∈ x.references ∨ loc ∈ allRefs x.entries := by
  induction l with
  | nil => rw [replaceChild] at h; exact Or.inl h
  | cons ent es ih =>
    by_cases hl : ent.label = c
    · have : replaceChild (ent :: es) c x = x :: es := by simp [replaceChild, hl]
      rw [this, allRefs_cons] at h
      rcases List.mem_append.mp h with h1 | h2
      · rcases List.mem_append.mp h1 with h3 | h4
        · exact Or.inr (Or.inl h3)
        · exact Or.inr (Or.inr h4)
      · exact Or.inl (by rw [allRefs_cons]; exact List.mem_append_right _ h2)
    · have : replaceChild (ent :: es) c x = ent :: replaceChild es c x := by
        simp [replaceChild, hl]
      rw [this, allRefs_cons] at h
      rcases List.mem_append.mp h with h1 | h2
      · exact Or.inl (by rw [allRefs_cons]; exact List.mem_append_left _ h1)
      · rcases ih h2 with h3 | h4
        · exact Or.inl (by rw [allRefs_cons]; exact List.mem_append_right _ h3)
        · exact Or.inr h4

theorem mem_allRefs_append {l1 l2 : List TextIndexEntry} {loc : Loc} :
    loc ∈ allRefs (l1 ++ l2) ↔ loc ∈ allRefs l1 ∨ loc ∈ allRefs l2 := by
  induction l1 with
  | nil => simp [allRefs_nil]
  | cons e es ih =>
    rw [List.cons_append, allRefs_cons, allRefs_cons]
    simp only [List.mem_append, ih]
    tauto

theorem TextIndexEntry.references_withEntries (e : TextIndexEntry)
    (es : List TextIndexEntry) :
    (e.withEntries es).references = e.references := by
  cases e; rfl

/-- Creation is locator-free: `entry_at_path` never adds, removes or edits a locator: every locator
of the updated forest was already in the forest (created entries carry
empty reference lists). -/
theorem mem_allRefs_entryAtPathAux :
    ∀ (comps : List String) (entries : List TextIndexEntry) (nid : Nat)
      (create : Bool) (lvl txd : Nat) (loc : Loc),
      loc ∈ allRefs (entryAtPathAux comps entries nid create lvl txd).entries →
      loc ∈ allRefs entries := by
  intro comps
  induction comps with
  | nil => intro entries nid create lvl txd loc h; exact h
  | cons c rest ih =>
    intro entries nid create lvl txd loc h
    cases hf : findChild entries c with
    | some found =>
      cases rest with
      | nil =>
        have hR : entryAtPathAux [c] entries nid create lvl txd =
            ⟨entries, nid, some found, false, txd⟩ := by
          rw [entryAtPathAux_cons, hf]
        rw [hR] at h
        exact h
      | cons r rs =>
        have hR : (entryAtPathAux (c :: r :: rs) entries nid create lvl txd).entries =
            replaceChild entries c (found.withEntries
              (entryAtPathAux (r :: rs) found.entries nid create (lvl + 1) txd).entries) := by
          rw [entryAtPathAux_cons, hf]
        rw [hR] at h
        have hfm : found ∈ entries := List.mem_of_find?_eq_some hf
        rcases mem_allRefs_replaceChild h with h1 | h2 | h3
        · exact h1
        · rw [TextIndexEntry.references_withEntries] at h2
          exact mem_allRefs_of_mem_refs hfm h2
        · rw [TextIndexEntry.entries_withEntries] at h3
          exact mem_allRefs_of_mem_sub hfm (ih _ _ _ _ _ _ h3)
    | none =>
      cases create with
      | false =>
        have hR : entryAtPathAux (c :: rest) entries nid false lvl txd =
            ⟨entries, nid, none, false, txd⟩ := by
          rw [entryAtPathAux_cons, hf]
          cases rest <;> rfl
        rw [hR] at h
        exact h
      | true =>
        cases rest with
        | nil =>
          have hR : (entryAtPathAux [c] entries nid true lvl txd).entries =
              entries ++ [newEntry nid c] := by
            rw [entryAtPathAux_cons, hf]
            rfl
          rw [hR] at h
          rcases mem_allRefs_append.mp h with h1 | h2
          · exact h1
          · rw [allRefs_cons] at h2
            simp [newEntry, TextIndexEntry.references, TextIndexEntry.entries,
              allRefs_nil] at h2
        | cons r rs =>
          have hR : (entryAtPathAux (c :: r :: rs) entries nid true lvl txd).entries =
              entries ++ [(newEntry nid c).withEntries
                (entryAtPathAux (r :: rs) [] (nid + 1) true (lvl + 1) (max txd lvl)).entries] := by
            rw [entryAtPathAux_cons, hf]
            rfl
          rw [hR] at h
          rcases mem_allRefs_append.mp h with h1 | h2
          · exact h1
          · rw [allRefs_cons, TextIndexEntry.entries_withEntries] at h2
            have : loc ∈ allRefs (entryAtPathAux (r :: rs) [] (nid + 1) true (lvl + 1)
                (max txd lvl)).entries := by
              simpa [newEntry, TextIndexEntry.withEntries, TextIndexEntry.references,
                allRefs_nil] using h2
            have := ih _ _ _ _ _ _ this
            rw [allRefs_nil] at this
            cases this

/-- Generic effect of a path-targeted mutation on the stored locators:
whatever `f` does to the one entry it reaches, every locator of the result
is an untouched old locator, a locator `f` may introduce from nothing
(`P`), or the image under `f`'s rewriting (`Q`) of an old locator. -/
theorem mem_allRefs_modifyAtPath (f : TextIndexEntry → TextIndexEntry)
    (P : Loc → Prop) (Q : Loc → Loc → Prop)
    (hfe : ∀ ent, (f ent).entries = ent.entries)
    (hfr : ∀ ent loc, loc ∈ (f ent).references →
      loc ∈ ent.references ∨ P loc ∨ ∃ old ∈ ent.references, Q old loc) :
    ∀ (path : List String) (l : List TextIndexEntry) (loc : Loc),
      loc ∈ allRefs (modifyAtPath path l f) →
      loc ∈ allRefs l ∨ P loc ∨ ∃ old ∈ allRefs l, Q old loc := by
  intro path
  induction path with
  | nil => intro l loc h; exact Or.inl h
  | cons c rest ih =>
    intro l loc h
    cases rest with
    | nil =>
      cases hf : findChild l c with
      | none => rw [modifyAtPath, hf] at h; exact Or.inl h
      | some found =>
        rw [modifyAtPath, hf] at h
        have hfm : found ∈ l := List.mem_of_find?_eq_some hf
        rcases mem_allRefs_replaceChild h with h1 | h2 | h3
        · exact Or.inl h1
        · rcases hfr found loc h2 with h4 | h5 | ⟨old, hom, hq⟩
          · exact Or.inl (mem_allRefs_of_mem_refs hfm h4)
          · exact Or.inr (Or.inl h5)
          · exact Or.inr (Or.inr ⟨old, mem_allRefs_of_mem_refs hfm hom, hq⟩)
        · rw [hfe] at h3
          exact Or.inl (mem_allRefs_of_mem_sub hfm h3)
    | cons r rs =>
      cases hf : findChild l c with
      | none => rw [modifyAtPath, hf] at h; exact Or.inl h
      | some found =>
        rw [modifyAtPath, hf] at h
        have hfm : found ∈ l := List.mem_of_find?_eq_some hf
        rcases mem_allRefs_replaceChild h with h1 | h2 | h3
        · exact Or.inl h1
        · rw [TextIndexEntry.references_withEntries] at h2
          exact Or.inl (mem_allRefs_of_mem_refs hfm h2)
        · rw [TextIndexEntry.entries_withEntries] at h3
          rcases ih found.entries loc h3 with h4 | h5 | ⟨old, hom, hq⟩
          · exact Or.inl (mem_allRefs_of_mem_sub hfm h4)
          · exact Or.inr (Or.inl h5)
          · exact Or.inr (Or.inr ⟨old, mem_allRefs_of_mem_sub hfm hom, hq⟩)

/-! ## C7: closing a non-existent range or entry -/

/-- The closing-mark branch of `create_index` (lines 1360-1396): the entry
is looked up with `create = not closing = False`; a missing entry, or an
existing entry with no references, produces a warning and leaves the tree
alone; otherwise the last reference of the entry receives `entry_number`
as its end id.  The returned flag is `True` exactly when the code prints
the "Attempted to close ..." warning and ignores the mark. -/
def TextIndex.applyClosingMark (label : String) (path_list : List String)
    (entry_number : Nat) (suffix : Option String) (section_number : Option String)
    (entries : List TextIndexEntry) (nid txd : Nat) :
    List TextIndexEntry × Bool :=
  let res := TextIndex.entry_at_path label path_list false entries nid txd
  match res.entry with
  | none => (res.entries, true)
  | some e =>
    if e.references.isEmpty then (res.entries, true)
    else
      (modifyAtPath (path_list ++ [label]) res.entries
        (fun ent => ent.update_latest_ref_end entry_number suffix section_number),
        false)

/-- C7: a range-closing mark naming a missing entry, or an entry with
no references, reports a warning and is ignored: the lookup runs with
`create=False`, so no entry is created, no locator is added or modified,
and the tree after the mark equals the tree before it. -/
theorem closing_mark_missing_entry_ignored
    (label : String) (path_list : List String) (entry_number : Nat)
    (suffix : Option String) (section_number : Option String)
    (entries : List TextIndexEntry) (nid txd : Nat)
    (hmiss :
      (TextIndex.entry_at_path label path_list false entries nid txd).entry = none ∨
        ∃ e, (TextIndex.entry_at_path label path_list false entries nid txd).entry =
            some e ∧ e.references = []) :
    TextIndex.applyClosingMark label path_list entry_number suffix section_number
      entries nid txd = (entries, true) := by
  have hsame :
      (TextIndex.entry_at_path label path_list false entries nid txd).entries =
        entries :=
    (entryAtPathAux_false (path_list ++ [label]) entries nid 0 txd).1
  rw [TextIndex.applyClosingMark]
  rcases hmiss with hnone | ⟨e, hsome, hrefs⟩
  · rw [hnone, hsame]
  · rw [hsome]
    dsimp only
    rw [hrefs]
    simp [hsame]

/-- Witness for C7: closing the path `cats > tails` in a tree holding only
a locator-less entry `cats` warns and returns the tree unchanged, and so
does closing `cats` itself (an existing entry with no references). -/
theorem closing_mark_missing_entry_ignored_witness :
    TextIndex.applyClosingMark "tails" ["cats"] 3 none none
        [TextIndexEntry.mk 0 "cats" none [] [] []] 1 0 =
      ([TextIndexEntry.mk 0 "cats" none [] [] []], true) ∧
      TextIndex.applyClosingMark "cats" [] 3 none none
          [TextIndexEntry.mk 0 "cats" none [] [] []] 1 0 =
        ([TextIndexEntry.mk 0 "cats" none [] [] []], true) :=
  ⟨closing_mark_missing_entry_ignored "tails" ["cats"] 3 none none
      [TextIndexEntry.mk 0 "cats" none [] [] []] 1 0 (Or.inl rfl),
    closing_mark_missing_entry_ignored "cats" [] 3 none none
      [TextIndexEntry.mk 0 "cats" none [] [] []] 1 0
      (Or.inr ⟨TextIndexEntry.mk 0 "cats" none [] [] [], rfl, rfl⟩)⟩

/-! ## C8: the per-mark loop of `create_index` and its locator invariant -/

theorem TextIndexEntry.entries_add_cross_reference (e : TextIndexEntry)
    (k : String) (p : List String) :
    (e.add_cross_reference k p).entries = e.entries := by
  cases e with
  | mk i l sk rs xs es =>
    rw [TextIndexEntry.add_cross_reference]
    split_ifs <;> rfl

theorem TextIndexEntry.references_add_cross_reference (e : TextIndexEntry)
    (k : String) (p : List String) :
    (e.add_cross_reference k p).references = e.references := by
  cases e with
  | mk i l sk rs xs es =>
    rw [TextIndexEntry.add_cross_reference]
    split_ifs <;> rfl

theorem TextIndexEntry.entries_add_reference (e : TextIndexEntry) (n : Nat)
    (s : Option String) (em : Bool) (sec : Option String) :
    (e.add_reference n s em sec).entries = e.entries := by
  cases e; rfl

theorem TextIndexEntry.references_add_reference (e : TextIndexEntry) (n : Nat)
    (s : Option String) (em : Bool) (sec : Option String) :
    (e.add_reference n s em sec).references =
      e.references ++ [⟨n, s, em, sectionTruthy sec, none, none, none⟩] := by
  cases e; rfl

theorem TextIndexEntry.entries_update_latest_ref_end (e : TextIndexEntry)
    (n : Nat) (s sec : Option String) :
    (e.update_latest_ref_end n s sec).entries = e.entries := by
  cases e with
  | mk i l sk rs xs es =>
    rw [TextIndexEntry.update_latest_ref_end]
    cases rs.getLast? <;> rfl

theorem mem_references_update_latest_ref_end {e : TextIndexEntry} {n : Nat}
    {s sec : Option String} {loc : Loc}
    (h : loc ∈ (e.update_latest_ref_end n s sec).references) :
    loc ∈ e.references ∨ ∃ old ∈ e.references, loc = updateLocEnd old n s sec := by
  cases e with
  | mk i l sk rs xs es =>
    rw [TextIndexEntry.update_latest_ref_end] at h
    cases hlast : rs.getLast? with
    | none =>
      rw [hlast] at h
      exact Or.inl h
    | some last =>
      rw [hlast] at h
      simp only [TextIndexEntry.references] at h ⊢
      have hsplit := List.dropLast_append_getLast? last hlast
      rcases List.mem_append.mp h with h1 | h2
      · exact Or.inl (by rw [← hsplit]; exact List.mem_append_left _ h1)
      · refine Or.inr ⟨last, ?_, ?_⟩
        · rw [← hsplit]; exact List.mem_append_right _ (List.mem_singleton_self _)
        · simpa using h2

/-- Assignment `entry.sort_key = sort_key` (line 1415). -/
def TextIndexEntry.setSortKey : TextIndexEntry → String → TextIndexEntry
  | .mk i l _ rs xs es, sk => .mk i l (some sk) rs xs es

theorem TextIndexEntry.entries_setSortKey (e : TextIndexEntry) (k : String) :
    (e.setSortKey k).entries = e.entries := by
  cases e; rfl

theorem TextIndexEntry.references_setSortKey (e : TextIndexEntry) (k : String) :
    (e.setSortKey k).references = e.references := by
  cases e; rfl

/-- One successfully parsed mark, as it reaches line 1360 of
`create_index`: the resolved label and ancestor path, the trailing-marker
flags, suffix, sort key, whether a locator is to be created (`create_ref`
is cleared by a plain see-reference), the outbound cross-references, the
inbound (`@`) cross-reference source paths, and the section number in
effect at the mark. -/
structure Directive where
  label : String
  path : List String
  closing : Bool
  emphasis : Bool
  suffix : Option String
  sort_key : Option String
  create_ref : Bool
  cross_refs : List (String × List String)
  inbound : List (String × List String)
  sec : Option String

/-- The loop state of `create_index`: the entry tree, the
`TextIndexEntry._next_id` counter, `self.depth`, `entry_number`, and the
ids of the anchor spans written into the output document so far. -/
structure ScanState where
  entries : List TextIndexEntry
  nid : Nat
  txd : Nat
  entry_number : Nat
  emitted : List Nat

/-- Inbound cross-reference handling (lines 1320-1336): find or create the
referenced source entry, then attach a cross-reference to this mark's
entry path on it.  (`src` is never empty: `split` always yields at least
one component.) -/
def applyInbound (entries : List TextIndexEntry) (nid txd : Nat)
    (ref_type : String) (src : List String) (thisPath : List String) :
    List TextIndexEntry × Nat × Nat :=
  match src.getLast? with
  | none => (entries, nid, txd)
  | some srcLabel =>
    let r := TextIndex.entry_at_path srcLabel src.dropLast true entries nid txd
    (modifyAtPath (src.dropLast ++ [srcLabel]) r.entries
        (fun e => e.add_cross_reference ref_type thisPath),
      r.nextId, r.txDepth)

def applyInbounds : List (String × List String) → List TextIndexEntry → Nat → Nat →
    List String → List TextIndexEntry × Nat × Nat
  | [], entries, nid, txd, _ => (entries, nid, txd)
  | (rt, src) :: rest, entries, nid, txd, thisPath =>
    let r := applyInbound entries nid txd rt src thisPath
    applyInbounds rest r.1 r.2.1 r.2.2 thisPath

/-- The tree mutations of one mark after the lookup (lines 1370-1424),
together with whether the mark is replaced by an anchor span (line 1427):
on a closing miss the code warns and `continue`s (no anchor); on a close of
an existing entry the latest reference's end is set when references exist;
otherwise it attaches the locator (when `create_ref`), the sort key and the
outbound cross-references.  `n` is the already-incremented `entry_number`
of the mark. -/
def TextIndex.applyMark (n : Nat) (d : Directive) (r : EAPResult) :
    List TextIndexEntry × Bool :=
  match r.entry with
  | none => (r.entries, false)
  | some e =>
    if d.closing then
      (if e.references.isEmpty then r.entries
        else
          modifyAtPath (d.path ++ [d.label]) r.entries
            (fun ent => ent.update_latest_ref_end n d.suffix d.sec),
        true)
    else
      let entries2 :=
        if d.create_ref then
          modifyAtPath (d.path ++ [d.label]) r.entries
            (fun ent => ent.add_reference n d.suffix d.emphasis d.sec)
        else r.entries
      let entries3 :=
        match sectionTruthy d.sort_key with
        | some k =>
          modifyAtPath (d.path ++ [d.label]) entries2 (fun ent => ent.setSortKey k)
        | none => entries2
      let entries4 :=
        modifyAtPath (d.path ++ [d.label]) entries3
          (fun ent => d.cross_refs.foldl
            (fun acc cr => acc.add_cross_reference cr.1 cr.2) ent)
      (entries4, true)

/-- Lines 1360-1435 of `create_index` for one enabled, labelled mark:
inbound cross-references are applied while parsing, `entry_number` is
incremented, the entry is looked up or created with `create = not closing`,
the mark's mutations are applied, and the anchor span id is recorded when
one is emitted. -/
def TextIndex.processDirective (st : ScanState) (d : Directive) : ScanState :=
  let ib := applyInbounds d.inbound st.entries st.nid st.txd (d.path ++ [d.label])
  let n := st.entry_number + 1
  let r := TextIndex.entry_at_path d.label d.path (!d.closing) ib.1 ib.2.1 ib.2.2
  let am := TextIndex.applyMark n d r
  ⟨am.1, r.nextId, r.txDepth, n, if am.2 then st.emitted ++ [n] else st.emitted⟩

/-- The whole scan pass over the parsed directives of a document, from the
fresh `TextIndex` state (`entry_number` is 1-based: the first mark gets
id 1). -/
def TextIndex.runScan (ds : List Directive) : ScanState :=
  ds.foldl TextIndex.processDirective ⟨[], 0, 0, 0, []⟩

theorem mem_allRefs_modify_refs_id (f : TextIndexEntry → TextIndexEntry)
    (hfe : ∀ ent, (f ent).entries = ent.entries)
    (hfr : ∀ ent, (f ent).references = ent.references)
    (path : List String) (l : List TextIndexEntry) (loc : Loc)
    (h : loc ∈ allRefs (modifyAtPath path l f)) : loc ∈ allRefs l := by
  rcases mem_allRefs_modifyAtPath f (fun _ => False) (fun _ _ => False) hfe
      (fun ent loc hm => Or.inl (by rw [hfr] at hm; exact hm)) path l loc h with
    h1 | h2 | ⟨_, _, h3⟩
  · exact h1
  · cases h2
  · cases h3

theorem references_foldl_add_cross_reference (crs : List (String × List String)) :
    ∀ ent : TextIndexEntry,
      (crs.foldl (fun acc cr => acc.add_cross_reference cr.1 cr.2) ent).references =
        ent.references := by
  induction crs with
  | nil => intro ent; rfl
  | cons cr crs ih =>
    intro ent
    rw [List.foldl_cons, ih, TextIndexEntry.references_add_cross_reference]

theorem entries_foldl_add_cross_reference (crs : List (String × List String)) :
    ∀ ent : TextIndexEntry,
      (crs.foldl (fun acc cr => acc.add_cross_reference cr.1 cr.2) ent).entries =
        ent.entries := by
  induction crs with
  | nil => intro ent; rfl
  | cons cr crs ih =>
    intro ent
    rw [List.foldl_cons, ih, TextIndexEntry.entries_add_cross_reference]

theorem mem_allRefs_applyInbound (entries : List TextIndexEntry) (nid txd : Nat)
    (rt : String) (src : List String) (tp : List String) (loc : Loc)
    (h : loc ∈ allRefs (applyInbound entries nid txd rt src tp).1) :
    loc ∈ allRefs entries := by
  rw [applyInbound] at h
  cases hl : src.getLast? with
  | none => rw [hl] at h; exact h
  | some srcLabel =>
    rw [hl] at h
    dsimp only at h
    have h2 := mem_allRefs_modify_refs_id _
      (fun ent => TextIndexEntry.entries_add_cross_reference ent rt tp)
      (fun ent => TextIndexEntry.references_add_cross_reference ent rt tp) _ _ _ h
    exact mem_allRefs_entryAtPathAux _ _ _ _ _ _ _ h2

theorem mem_allRefs_applyInbounds :
    ∀ (ibs : List (String × List String)) (entries : List TextIndexEntry)
      (nid txd : Nat) (tp : List String) (loc : Loc),
      loc ∈ allRefs (applyInbounds ibs entries nid txd tp).1 →
      loc ∈ allRefs entries := by
  intro ibs
  induction ibs with
  | nil => intro entries nid txd tp loc h; exact h
  | cons ib rest ih =>
    intro entries nid txd tp loc h
    obtain ⟨rt, src⟩ := ib
    rw [applyInbounds] at h
    exact mem_allRefs_applyInbound entries nid txd rt src tp loc (ih _ _ _ _ _ h)

theorem updateLocEnd_start_id (old : Loc) (n : Nat) (s sec : Option String) :
    (updateLocEnd old n s sec).start_id = old.start_id := rfl

theorem updateLocEnd_end_id (old : Loc) (n : Nat) (s sec : Option String) :
    (updateLocEnd old n s sec).end_id = some n := rfl

/-- When no anchor is emitted (a closing mark that missed), the tree also
left the lookup result untouched. -/
theorem applyMark_no_anchor (n : Nat) (d : Directive) (r : EAPResult)
    (h : (TextIndex.applyMark n d r).2 = false) :
    (TextIndex.applyMark n d r).1 = r.entries := by
  rw [TextIndex.applyMark] at h ⊢
  cases hre : r.entry with
  | none => rfl
  | some e =>
    rw [hre] at h
    dsimp only at h
    by_cases hcl : d.closing <;> simp [hcl] at h

/-- Every locator after one mark's mutations is an old locator, the fresh
locator `add_reference` appended (start id `n`, no end id), or an old
locator whose end fields were rewritten by `update_latest_ref_end`. -/
theorem mem_allRefs_applyMark (n : Nat) (d : Directive) (r : EAPResult) (loc : Loc)
    (h : loc ∈ allRefs (TextIndex.applyMark n d r).1) :
    loc ∈ allRefs r.entries ∨
      loc = ⟨n, d.suffix, d.emphasis, sectionTruthy d.sec, none, none, none⟩ ∨
      ∃ old ∈ allRefs r.entries, loc = updateLocEnd old n d.suffix d.sec := by
  rw [TextIndex.applyMark] at h
  cases hre : r.entry with
  | none => rw [hre] at h; exact Or.inl h
  | some e =>
    rw [hre] at h
    dsimp only at h
    by_cases hcl : d.closing
    · rw [if_pos hcl] at h
      dsimp only at h
      by_cases hemp : e.references.isEmpty
      · rw [if_pos hemp] at h
        exact Or.inl h
      · rw [if_neg hemp] at h
        rcases mem_allRefs_modifyAtPath _ (fun _ => False)
            (fun old loc => loc = updateLocEnd old n d.suffix d.sec)
            (fun ent => TextIndexEntry.entries_update_latest_ref_end ent n d.suffix d.sec)
            (fun ent loc hm => by
              rcases mem_references_update_latest_ref_end hm with h1 | ⟨old, ho, he⟩
              · exact Or.inl h1
              · exact Or.inr (Or.inr ⟨old, ho, he⟩)) _ _ _ h with
          h1 | h2 | h3
        · exact Or.inl h1
        · cases h2
        · exact Or.inr (Or.inr h3)
    · rw [if_neg hcl] at h
      dsimp only at h
      have h4 := mem_allRefs_modify_refs_id _
        (fun ent => entries_foldl_add_cross_reference d.cross_refs ent)
        (fun ent => references_foldl_add_cross_reference d.cross_refs ent) _ _ _ h
      have h3 : loc ∈ allRefs (if d.create_ref then
          modifyAtPath (d.path ++ [d.label]) r.entries
            (fun ent => ent.add_reference n d.suffix d.emphasis d.sec)
          else r.entries) := by
        cases hsk : sectionTruthy d.sort_key with
        | none => rw [hsk] at h4; exact h4
        | some k =>
          rw [hsk] at h4
          exact mem_allRefs_modify_refs_id _
            (fun ent => TextIndexEntry.entries_setSortKey ent k)
            (fun ent => TextIndexEntry.references_setSortKey ent k) _ _ _ h4
      by_cases hcr : d.create_ref
      · rw [if_pos hcr] at h3
        rcases mem_allRefs_modifyAtPath _
            (fun loc => loc = ⟨n, d.suffix, d.emphasis, sectionTruthy d.sec, none, none, none⟩)
            (fun _ _ => False)
            (fun ent => TextIndexEntry.entries_add_reference ent n d.suffix d.emphasis d.sec)
            (fun ent loc hm => by
              rw [TextIndexEntry.references_add_reference] at hm
              rcases List.mem_append.mp hm with h1 | h2
              · exact Or.inl h1
              · exact Or.inr (Or.inl (List.mem_singleton.mp h2))) _ _ _ h3 with
          h1 | h2 | ⟨_, _, h5⟩
        · exact Or.inl h1
        · exact Or.inr (Or.inl h2)
        · cases h5
      · rw [if_neg hcr] at h3
        exact Or.inl h3

/-- The scan invariant: every stored locator's ids were issued (bounded by
`entry_number`) and anchored in the output, and a range end is strictly
later than its start. -/
def ScanInv (st : ScanState) : Prop :=
  ∀ loc ∈ allRefs st.entries,
    loc.start_id ≤ st.entry_number ∧ loc.start_id ∈ st.emitted ∧
      ∀ e, loc.end_id = some e →
        loc.start_id < e ∧ e ≤ st.entry_number ∧ e ∈ st.emitted

theorem processDirective_inv (st : ScanState) (d : Directive) (h : ScanInv st) :
    ScanInv (TextIndex.processDirective st d) := by
  intro loc hloc
  rw [TextIndex.processDirective] at hloc ⊢
  dsimp only at hloc ⊢
  have hchain : ∀ loc' : Loc,
      loc' ∈ allRefs (TextIndex.entry_at_path d.label d.path (!d.closing)
          (applyInbounds d.inbound st.entries st.nid st.txd (d.path ++ [d.label])).1
          (applyInbounds d.inbound st.entries st.nid st.txd (d.path ++ [d.label])).2.1
          (applyInbounds d.inbound st.entries st.nid st.txd (d.path ++ [d.label])).2.2).entries →
      loc' ∈ allRefs st.entries := by
    intro loc' hm
    exact mem_allRefs_applyInbounds _ _ _ _ _ _
      (mem_allRefs_entryAtPathAux _ _ _ _ _ _ _ hm)
  cases ham : (TextIndex.applyMark (st.entry_number + 1) d
      (TextIndex.entry_at_path d.label d.path (!d.closing)
        (applyInbounds d.inbound st.entries st.nid st.txd (d.path ++ [d.label])).1
        (applyInbounds d.inbound st.entries st.nid st.txd (d.path ++ [d.label])).2.1
        (applyInbounds d.inbound st.entries st.nid st.txd (d.path ++ [d.label])).2.2)).2 with
  | false =>
    simp only [if_neg Bool.false_ne_true]
    rw [applyMark_no_anchor _ _ _ ham] at hloc
    obtain ⟨h1, h2, h3⟩ := h loc (hchain loc hloc)
    refine ⟨by omega, h2, fun e he => ?_⟩
    obtain ⟨h4, h5, h6⟩ := h3 e he
    exact ⟨h4, by omega, h6⟩
  | true =>
    simp only [if_pos rfl]
    rcases mem_allRefs_applyMark _ _ _ _ hloc with hold | hnew | ⟨old, holdm, hupd⟩
    · obtain ⟨h1, h2, h3⟩ := h loc (hchain loc hold)
      refine ⟨by omega, List.mem_append_left _ h2, fun e he => ?_⟩
      obtain ⟨h4, h5, h6⟩ := h3 e he
      exact ⟨h4, by omega, List.mem_append_left _ h6⟩
    · subst hnew
      refine ⟨le_rfl, List.mem_append_right _ (List.mem_singleton_self _),
        fun e he => ?_⟩
      cases he
    · obtain ⟨h1, h2, h3⟩ := h old (hchain old holdm)
      subst hupd
      rw [updateLocEnd_start_id]
      refine ⟨by omega, List.mem_append_left _ h2, fun e he => ?_⟩
      rw [updateLocEnd_end_id] at he
      injection he with he
      subst he
      exact ⟨by omega, le_rfl,
        List.mem_append_right _ (List.mem_singleton_self _)⟩

theorem runScan_inv (ds : List Directive) : ScanInv (TextIndex.runScan ds) := by
  rw [TextIndex.runScan]
  have key : ∀ (ds : List Directive) (st : ScanState), ScanInv st →
      ScanInv (ds.foldl TextIndex.processDirective st) := by
    intro ds
    induction ds with
    | nil => intro st hst; exact hst
    | cons d ds ih =>
      intro st hst
      exact ih _ (processDirective_inv st d hst)
  refine key ds _ ?_
  intro loc hloc
  rw [allRefs_nil] at hloc
  cases hloc

/-- The decidable per-locator check of the claim: the start id is an
emitted anchor id, and the end id, when present, is strictly greater than
the start id and is itself an emitted anchor id. -/
def locOK (emitted : List Nat) (loc : Loc) : Bool :=
  emitted.contains loc.start_id &&
    match loc.end_id with
    | some e => decide (loc.start_id < e) && emitted.contains e
    | none => true

/-- C8: at the end of the scan pass over any parsed directive list,
every locator stored anywhere in the entry tree has `start_id` equal to
the id of an anchor span actually emitted into the output document, and if
it has an `end_id` then that end id is strictly greater than its start id
(the closing mark came later in document order) and is also an emitted
anchor's id. -/
theorem runScan_locator_invariant (ds : List Directive) :
    (allRefs (TextIndex.runScan ds).entries).all
      (locOK (TextIndex.runScan ds).emitted) = true := by
  rw [List.all_eq_true]
  intro loc hloc
  obtain ⟨h1, h2, h3⟩ := runScan_inv ds loc hloc
  rw [locOK]
  cases he : loc.end_id with
  | none =>
    simp only [he]
    simpa using h2
  | some e =>
    obtain ⟨h4, h5, h6⟩ := h3 e he
    simp only [he, h4]
    simpa using ⟨h2, h6⟩

/-! ## C3: the processing toggle

The document scanner's per-mark state machine (lines 1042-1086), over a
document already decomposed into plain text and marks.  A mark is the
regex match `token{^body}` (or a bare `{^body}`): `vis` is the adjacent
token captured as visible text and the raw matched text is
`vis ++ "{^" ++ body ++ "}"`.  The model covers bodies without alias
(`#`), wildcard (`*`), cross-reference (`|`), sort-key (`~`) or suffix
(`[`) syntax, on which the corresponding parsing passes of
`create_index` are the identity, and visible tokens (not bracketed
spans). -/

inductive DocItem where
  | text (s : String)
  | mark (vis : Option String) (body : String)

def endsWithChar (s : String) (c : Char) : Bool :=
  s.data.getLast? == some c

def dropLastChar (s : String) : String :=
  String.mk s.data.dropLast

def isQuoteChar (c : Char) : Bool :=
  c = Char.ofNat 39 || c = Char.ofNat 34

/-- Python `component.strip("'\x22")`. -/
def stripQuotesL (l : List Char) : List Char :=
  ((l.dropWhile isQuoteChar).reverse.dropWhile isQuoteChar).reverse

/-- Python `text.split(">")` (keeps empty components). -/
def splitOnGt : List Char → List (List Char)
  | [] => [[]]
  | c :: rest =>
    if c = '>' then [] :: splitOnGt rest
    else
      match splitOnGt rest with
      | g :: gs => (c :: g) :: gs
      | [] => [[c]]

/-- Label-path extraction (lines 1088-1148) for the restricted body
grammar: the whole remaining body is the label path, split on `>` with
quotes stripped; the last non-empty component becomes the label,
otherwise the visible text serves as label. -/
def labelPathFromParams (vis : Option String) (params : String) :
    Option String × List String :=
  if params = "" then (vis, [])
  else
    let comps := (splitOnGt params.data).map (fun l => String.mk (stripQuotesL l))
    match comps.getLast? with
    | none => (vis, [])
    | some lastc =>
      let lbl_comps :=
        if lastc ≠ ">" ∧ lastc ≠ "" then (some lastc, comps.dropLast)
        else (vis, comps)
      let comps3 :=
        if lbl_comps.2.getLast? = some "" then lbl_comps.2.dropLast else lbl_comps.2
      (lbl_comps.1, comps3)

/-- Function `emphasis(text)` with `remove=False`: `_..._` becomes `<em>...</em>`
(same scan as `seFuel`). -/
def eaFuel : Nat → List Char → List Char
  | 0, l => l
  | _ + 1, [] => []
  | f + 1, c :: rest =>
    if c = '_' then
      match rest.dropWhile (fun d => d != '_') with
      | '_' :: tail =>
        let mid := rest.takeWhile (fun d => d != '_')
        if mid.isEmpty then c :: eaFuel f rest
        else ("<em>".data ++ mid ++ "</em>".data) ++ eaFuel f tail
      | _ => c :: eaFuel f rest
    else c :: eaFuel f rest

def emphasisAdd (s : String) : String :=
  String.mk (eaFuel s.data.length s.data)

def digitChar (d : Nat) : Char := Char.ofNat (48 + d)

/-- Conversion `str(n)` as a string of digit characters. -/
def natToStr (n : Nat) : String :=
  String.mk ((decDigits n).map digitChar)

/-- The raw matched text of a mark (`directive.group(0)`). -/
def rawMark (vis : Option String) (body : String) : String :=
  (match vis with | some v => v | none => "") ++ "\x7b^" ++ body ++ "\x7d"

/-- The anchor span a processed mark is replaced with (line 1427), with the
default `idx` id prefix and the shared `textindex` class. -/
def spanHtml (n : Nat) (vis : Option String) : String :=
  "<span id=\"idx" ++ natToStr n ++ "\" class=\"textindex\">" ++
    (match vis with | some v => emphasisAdd v | none => "") ++ "</span>"

structure ToggleScanState where
  enabled : Bool
  scan : ScanState
  output : String

/-- One iteration of the directive loop of `create_index` for one document
item: the toggle/trailing-marker elif chain, the removal of effective
toggle marks, the `continue` that leaves skipped marks verbatim in the
document, and the processing of an enabled mark (`processDirective` with
an empty inbound list, inlined) followed by the anchor-span replacement. -/
def processItem (ts : ToggleScanState) (item : DocItem) : ToggleScanState :=
  match item with
  | .text s => ⟨ts.enabled, ts.scan, ts.output ++ s⟩
  | .mark vis body =>
    let params := body
    let toggling := params = "+" ∨ params = "-"
    let step :=
      if endsWithChar params '/' then (true, false, dropLastChar params, false, ts.enabled)
      else if endsWithChar params '!' then (false, true, dropLastChar params, false, ts.enabled)
      else if params = "+" ∧ ¬ts.enabled then (false, false, params, true, true)
      else if params = "-" ∧ ts.enabled then (false, false, params, true, false)
      else (false, false, params, false, ts.enabled)
    let closing := step.1
    let emphasisFlag := step.2.1
    let params2 := step.2.2.1
    let statusToggled := step.2.2.2.1
    let enabled2 := step.2.2.2.2
    if toggling ∧ (enabled2 ∨ statusToggled) then
      ⟨enabled2, ts.scan, ts.output⟩
    else if ¬enabled2 ∨ statusToggled ∨ toggling then
      ⟨enabled2, ts.scan, ts.output ++ rawMark vis body⟩
    else
      match labelPathFromParams vis params2 with
      | (none, _) => ⟨enabled2, ts.scan, ts.output ++ rawMark vis body⟩
      | (some lbl, path) =>
        let d : Directive := ⟨lbl, path, closing, emphasisFlag, none, none, true, [], [], none⟩
        let n := ts.scan.entry_number + 1
        let r := TextIndex.entry_at_path d.label d.path (!d.closing)
          ts.scan.entries ts.scan.nid ts.scan.txd
        let am := TextIndex.applyMark n d r
        ⟨enabled2,
          ⟨am.1, r.nextId, r.txDepth, n,
            if am.2 then ts.scan.emitted ++ [n] else ts.scan.emitted⟩,
          ts.output ++ (if am.2 then spanHtml n vis else rawMark vis body)⟩

/-- The scan over a decomposed document, processing enabled (line 945). -/
def scanToggle (items : List DocItem) : ToggleScanState :=
  items.foldl processItem ⟨true, ⟨[], 0, 0, 0, []⟩, ""⟩

/-- C3 counterexample: on `"{^-}A{^Kept}B{^+}C{^AlsoKept}"` the code
produces an index entry only for "AlsoKept": the mark `{^Kept}` sits in
the disabled region, and far from being stripped it stays verbatim in the
output document (while the re-enable match `B{^+}` is removed together
with its adjacent token `B`). -/
theorem toggle_scenario_counterexample :
    (scanToggle [.mark none "-", .mark (some "A") "Kept", .mark (some "B") "+",
        .mark (some "C") "AlsoKept"]).scan.entries.map TextIndexEntry.label =
      ["AlsoKept"] ∧
      ¬((scanToggle [.mark none "-", .mark (some "A") "Kept", .mark (some "B") "+",
          .mark (some "C") "AlsoKept"]).scan.entries.map TextIndexEntry.label =
        ["Kept", "AlsoKept"]) ∧
      (scanToggle [.mark none "-", .mark (some "A") "Kept", .mark (some "B") "+",
        .mark (some "C") "AlsoKept"]).output =
        "A\x7b^Kept\x7d<span id=\"idx1\" class=\"textindex\">C</span>" :=
  ⟨by decide, by decide, by decide⟩

/-- C3 amended: while processing is disabled, every non-toggle mark
is skipped without creating an index entry but remains verbatim in the
output document (it is not stripped); in the toggle scenario only
"AlsoKept" produces an index entry, and the effective toggle marks vanish
from the output (taking their adjacent visible token with them). -/
theorem toggle_disabled_marks_behaviour :
    (∀ (scan : ScanState) (out : String) (vis : Option String) (body : String),
        body ≠ "+" → body ≠ "-" →
        processItem ⟨false, scan, out⟩ (.mark vis body) =
          ⟨false, scan, out ++ rawMark vis body⟩) ∧
      (scanToggle [.mark none "-", .mark (some "A") "Kept", .mark (some "B") "+",
          .mark (some "C") "AlsoKept"]).scan.entries.map TextIndexEntry.label =
        ["AlsoKept"] ∧
      (scanToggle [.mark none "-", .mark (some "A") "Kept", .mark (some "B") "+",
        .mark (some "C") "AlsoKept"]).output =
        "A\x7b^Kept\x7d<span id=\"idx1\" class=\"textindex\">C</span>" := by
  refine ⟨?_, by decide, by decide⟩
  intro scan out vis body h1 h2
  have ht : ¬(body = "+" ∨ body = "-") := by
    rintro (rfl | rfl)
    · exact h1 rfl
    · exact h2 rfl
  rw [processItem]
  dsimp only
  by_cases he1 : endsWithChar body '/' = true
  · simp [he1, ht]
  · by_cases he2 : endsWithChar body '!' = true
    · simp [he1, he2, ht]
    · simp [he1, he2, ht, h1, h2]

/-- Witness for C3 (amended) at a concrete disabled mark. -/
theorem toggle_disabled_marks_behaviour_witness :
    processItem ⟨false, ⟨[], 0, 0, 0, []⟩, ""⟩ (.mark (some "A") "Kept") =
      ⟨false, ⟨[], 0, 0, 0, []⟩, "" ++ rawMark (some "A") "Kept"⟩ :=
  toggle_disabled_marks_behaviour.1 ⟨[], 0, 0, 0, []⟩ "" (some "A") "Kept"
    (by decide) (by decide)

/-! ## C9: the index-to-document size-ratio check -/

/-- A `\w` word character (ASCII scope of the model). -/
def isWordChar (c : Char) : Bool := c.isAlphanum || c = '_'

/-- Number of maximal word-character runs: `len(re.findall(r"\b\w+\b", s))`. -/
def countRuns : List Char → Bool → Nat
  | [], _ => 0
  | c :: rest, inRun =>
    if isWordChar c then (if inRun then 0 else 1) + countRuns rest true
    else countRuns rest false

def wordCount (s : String) : Nat := countRuns s.data false

/-- Pattern `re.sub(r"<.*?>", "", s)`: from each `<`, the shortest same-line span
up to a `>` is removed; a `<` with no closing `>` on its line is kept. -/
def stFuel : Nat → List Char → List Char
  | 0, l => l
  | _ + 1, [] => []
  | f + 1, c :: rest =>
    if c = '<' then
      match rest.dropWhile (fun d => d != '>' && d != '\n') with
      | '>' :: tail => stFuel f tail
      | _ => c :: stFuel f rest
    else c :: stFuel f rest

def stripTags (s : String) : String :=
  String.mk (stFuel s.data.length s.data)

/-- The tail of `index_html` (lines 1713-1739): tags are stripped from the
indexed document and from the rendered index, words are counted, and
`ratio = round((wc_index / wc_doc) * 100, 1)` is computed before `html` is
returned.  The ratio's value only selects between an informational message
and a warning, so it is not modelled — but the division itself raises
`ZeroDivisionError` when the stripped document contains no words, aborting
`index_html` before it can return. -/
def TextIndex.sizeRatioCheck (indexedDocument html : String) : Except String String :=
  let wcDoc := wordCount (stripTags indexedDocument)
  let _wcIndex := wordCount (stripTags html)
  if wcDoc = 0 then Except.error "ZeroDivisionError: division by zero"
  else Except.ok html

/-- C9: the size-ratio check is *not* warning-only: on a document with
zero `\w` words (for example `"."`, whose index is empty), the ratio
computation divides by zero and `index_html` raises instead of returning
the rendered index; on any document with at least one word it returns the
index regardless of the ratio's value. -/
theorem index_html_ratio_zero_division :
    TextIndex.sizeRatioCheck "." "" =
        Except.error "ZeroDivisionError: division by zero" ∧
      TextIndex.sizeRatioCheck "one word." "" = Except.ok "" :=
  ⟨rfl, rfl⟩

/-- On every document whose tag-stripped text has at least one word, the
check always reaches `return html`, whatever the ratio: the claim's
"informational warning only" behaviour holds exactly on those inputs. -/
theorem sizeRatioCheck_ok_of_words (doc html : String)
    (h : wordCount (stripTags doc) ≠ 0) :
    TextIndex.sizeRatioCheck doc html = Except.ok html := by
  rw [TextIndex.sizeRatioCheck]
  simp [h]
